import Mathlib

/-!
Verification of the timed read/search/parse engine of `src/hostapi/Stream.h`
(class `arduino::Stream`).

Embedding conventions.  The byte source together with the deadline is modelled
as a `List Char`: the finite sequence of bytes that the underlying `read`/`peek`
deliver before the configured timeout expires.  `timedRead`/`timedPeek` on an
exhausted list return `none`, mirroring the `-1` timeout sentinel of the C++
code.  All stateful methods are state-passing functions returning the value
paired with the remaining stream.  `long` arithmetic is modelled by `Int`
(signed overflow is undefined behaviour in C++ and arises in none of the
claims); `double` arithmetic in `parseFloat` is modelled exactly by `Rat`
(the algorithmic structure — accumulators, the 0.1 scale factor — is
preserved; IEEE rounding is idealised away).
-/

namespace ArduinoStream

/-- Lookahead options of `parseInt` / `parseFloat` (Stream.h lines 46-50). -/
inductive LookaheadMode where
  | SKIP_ALL
  | SKIP_NONE
  | SKIP_WHITESPACE
deriving DecidableEq, Repr

/-- `NO_IGNORE_CHAR` of Stream.h line 52: a char not found in a valid ASCII
numeric field. -/
def NO_IGNORE_CHAR : Char := '\x01'

/-- The test `c >= '0' && c <= '9'` used throughout Stream.h. -/
def isDigitChar (c : Char) : Bool := decide ('0' ≤ c ∧ c ≤ '9')

/-- The value `c - '0'` of a digit character. -/
def digitVal (c : Char) : Int := (c.toNat : Int) - ('0'.toNat : Int)

/-- `timedRead` (Stream.h lines 102-110): next byte, consuming it, or the
timeout sentinel `none` when the source is exhausted before the deadline. -/
def timedRead : List Char → Option Char × List Char
  | [] => (none, [])
  | c :: rest => (some c, rest)

/-- `timedPeek` (Stream.h lines 113-121): next byte without consuming it, or
the timeout sentinel `none`. -/
def timedPeek : List Char → Option Char × List Char
  | [] => (none, [])
  | c :: rest => (some c, c :: rest)

/-- `peekNextDigit` (Stream.h lines 124-147): repeatedly peek; return a sign,
digit or (when `detectDecimal`) decimal point without consuming it; discard
other bytes according to the lookahead policy; `none` on timeout or policy
rejection.  The C++ `switch` falls through from the whitespace cases of
`SKIP_WHITESPACE` into `SKIP_ALL`, so both discard the byte and continue. -/
def peekNextDigit (lookahead : LookaheadMode) (detectDecimal : Bool) :
    List Char → Option Char × List Char
  | [] => (none, [])
  | c :: rest =>
    if c = '-' ∨ ('0' ≤ c ∧ c ≤ '9') ∨ (detectDecimal ∧ c = '.') then
      (some c, c :: rest)
    else
      match lookahead with
      | .SKIP_NONE => (none, c :: rest)
      | .SKIP_WHITESPACE =>
        if c = ' ' ∨ c = '\t' ∨ c = '\r' ∨ c = '\n' then
          peekNextDigit lookahead detectDecimal rest
        else (none, c :: rest)
      | .SKIP_ALL => peekNextDigit lookahead detectDecimal rest

/-- Update of the `isNegative` flag by one scanned character, shared by the
loop bodies of `parseInt` and `parseFloat` (Stream.h lines 212-215, 242-245):
the ignore test runs first, then `-` sets the flag. -/
def signUpd (ignore c : Char) (isNeg : Bool) : Bool :=
  if c = ignore then isNeg else if c = '-' then true else isNeg

/-- Update of `value` by one scanned character in the `parseInt` loop
(Stream.h lines 212-217). -/
def intValUpd (ignore c : Char) (value : Int) : Int :=
  if c = ignore then value
  else if c = '-' then value
  else if isDigitChar c then value * 10 + digitVal c
  else value

/-- The do-while loop of `parseInt` (Stream.h lines 211-220).  `c` is the
current character (already consumed from the stream argument); the result
carries the final `isNegative` flag, the accumulated value, and the remaining
stream.  The loop continues while the next peeked byte is a digit or the
ignore character. -/
def parseIntCore (ignore : Char) (isNeg : Bool) (value : Int) (c : Char) :
    List Char → Bool × Int × List Char
  | [] => (signUpd ignore c isNeg, intValUpd ignore c value, [])
  | c' :: rest =>
    if isDigitChar c' ∨ c' = ignore then
      parseIntCore ignore (signUpd ignore c isNeg) (intValUpd ignore c value) c' rest
    else (signUpd ignore c isNeg, intValUpd ignore c value, c' :: rest)

/-- `parseInt` (Stream.h lines 201-225): lookahead for the first valid start
byte; on failure return 0; otherwise run the scan loop and apply the sign. -/
def parseInt (lookahead : LookaheadMode) (ignore : Char) (s : List Char) :
    Int × List Char :=
  match peekNextDigit lookahead false s with
  | (none, s') => (0, s')
  | (some c, s') =>
    let r := parseIntCore ignore false 0 c s'.tail
    (if r.1 then -r.2.1 else r.2.1, r.2.2)

/-- Update of the `isFraction` flag by one scanned character in the
`parseFloat` loop (Stream.h lines 242-247). -/
def fracUpd (ignore c : Char) (isFrac : Bool) : Bool :=
  if c = ignore then isFrac
  else if c = '-' then isFrac
  else if c = '.' then true
  else isFrac

/-- Update of `value` by one scanned character in the `parseFloat` loop
(Stream.h lines 242-256); the C++ code updates `fraction` before using it
(`fraction *= 0.1; value = value + fraction * (c - '0')`). -/
def floatValUpd (ignore c : Char) (isFrac : Bool) (value fraction : Rat) : Rat :=
  if c = ignore then value
  else if c = '-' then value
  else if c = '.' then value
  else if isDigitChar c then
    if isFrac then value + (fraction * (1/10)) * ((digitVal c : Int) : Rat)
    else value * 10 + ((digitVal c : Int) : Rat)
  else value

/-- Update of the `fraction` scale factor by one scanned character in the
`parseFloat` loop (Stream.h lines 248-256). -/
def floatScaleUpd (ignore c : Char) (isFrac : Bool) (fraction : Rat) : Rat :=
  if c = ignore then fraction
  else if c = '-' then fraction
  else if c = '.' then fraction
  else if isDigitChar c then
    if isFrac then fraction * (1/10) else fraction
  else fraction

/-- The do-while loop of `parseFloat` (Stream.h lines 241-259).  As
`parseIntCore`, additionally tracking the `isFraction` flag and the shrinking
`fraction` scale factor.  The loop condition `c == '.' && !isFraction` reads
the updated flag. -/
def parseFloatCore (ignore : Char) (isNeg isFrac : Bool) (value fraction : Rat)
    (c : Char) : List Char → Bool × Rat × List Char
  | [] => (signUpd ignore c isNeg, floatValUpd ignore c isFrac value fraction, [])
  | c' :: rest =>
    if isDigitChar c' ∨ (c' = '.' ∧ ¬fracUpd ignore c isFrac) ∨ c' = ignore then
      parseFloatCore ignore (signUpd ignore c isNeg) (fracUpd ignore c isFrac)
        (floatValUpd ignore c isFrac value fraction)
        (floatScaleUpd ignore c isFrac fraction) c' rest
    else (signUpd ignore c isNeg, floatValUpd ignore c isFrac value fraction,
          c' :: rest)

/-- `parseFloat` (Stream.h lines 229-265): as `parseInt` with decimal-point
detection enabled in the lookahead. -/
def parseFloat (lookahead : LookaheadMode) (ignore : Char) (s : List Char) :
    Rat × List Char :=
  match peekNextDigit lookahead true s with
  | (none, s') => (0, s')
  | (some c, s') =>
    let r := parseFloatCore ignore false false 0 1 c s'.tail
    (if r.1 then -r.2.1 else r.2.1, r.2.2)

/-- `readBytesUntil` (Stream.h lines 289-298): read up to `length` bytes into
the buffer, stopping on timeout or on reading a byte equal to `terminator`
(which `timedRead` consumes but which is not stored).  Returns the buffer
contents (whose length is the returned count) and the remaining stream. -/
def readBytesUntil (terminator : Char) : Nat → List Char → List Char × List Char
  | 0, s => ([], s)
  | _ + 1, [] => ([], [])
  | n + 1, c :: rest =>
    if c = terminator then ([], rest)
    else
      let r := readBytesUntil terminator n rest
      (c :: r.1, r.2)

/-- `MultiTarget` (Stream.h lines 77-81).  The C++ struct also carries
`len`, always the length of the pattern being searched; here `len` is
`str.length`. -/
structure MultiTarget where
  str : List Char
  index : Nat
deriving DecidableEq, Repr

/-- Pattern character access `t->str[i]`; all accesses in `findMulti` are
within bounds, so the default is irrelevant. -/
def chAt (str : List Char) (i : Nat) : Char := str.getD i 'A'

/-- The inner verification loop of `findMulti` (Stream.h lines 381-384):
`str[i] == str[i + diff]` for all `i < len`. -/
def borderCheck (str : List Char) (len diff : Nat) : Bool :=
  (List.range len).all fun i => chAt str i = chAt str (i + diff)

/-- The walk-back do-while loop of `findMulti` (Stream.h lines 366-394),
entered with `t->index = orig ≥ 1` after byte `c` mismatched `str[orig]`.
The argument is the current value of `t->index`; each iteration first
decrements it, then tests whether the byte `c` extends a shorter partial
match. -/
def backtrack (str : List Char) (orig : Nat) (c : Char) : Nat → Nat
  | 0 => 0
  | j + 1 =>
    if c = chAt str j then
      if j = 0 then 1
      else if borderCheck str j (orig - j) then j + 1
      else backtrack str orig c j
    else backtrack str orig c j

/-- One byte of `findMulti`'s scan for a single target (Stream.h lines
349-395), omitting the completion test: the new value of `t->index`. -/
def stepIndex (str : List Char) (c : Char) (i : Nat) : Nat :=
  if c = chAt str i then i + 1
  else if i = 0 then 0
  else backtrack str i c i

/-- One incoming byte of `findMulti`, processing the targets in list order
(Stream.h lines 349-395): `some k` when the k-th target (relative to this
list) completes — the search returns immediately, so later targets are not
processed — else `none` and the updated targets.  A target completes exactly
when the byte matches `str[index]` and the incremented index reaches `len`;
in every other case the new index is `stepIndex` (the match branch gives
`index + 1`, the mismatch branches give 0 or the walk-back result, which
never reaches `len`). -/
def fmStep (c : Char) : List MultiTarget → Option Nat × List MultiTarget
  | [] => (none, [])
  | t :: ts =>
    if c = chAt t.str t.index ∧ t.index + 1 = t.str.length then
      (some 0, { t with index := t.index + 1 } :: ts)
    else
      let r := fmStep c ts
      (r.1.map Nat.succ, { t with index := stepIndex t.str c t.index } :: r.2)

/-- The scan loop of `findMulti` (Stream.h lines 344-396): read bytes until
some target completes (returning its position and leaving the stream just past
the byte that completed it) or the source times out (returning `-1` with the
source exhausted). -/
def findMultiLoop : List MultiTarget → List Char → Int × List Char
  | _, [] => (-1, [])
  | tgts, c :: rest =>
    match fmStep c tgts with
    | (some k, _) => ((k : Int), rest)
    | (none, tgts') => findMultiLoop tgts' rest

/-- `findMulti` (Stream.h lines 336-399): any zero length target matches
immediately, in list order, before the scan begins; otherwise scan with all
cursors starting at 0. -/
def findMulti (ps : List (List Char)) (s : List Char) : Int × List Char :=
  match ps.findIdx? (fun p => p.length == 0) with
  | some k => ((k : Int), s)
  | none => findMultiLoop (ps.map fun p => ⟨p, 0⟩) s

/-- `find(target)` / `find(target, length)` (Stream.h lines 163-173, 182-191):
a single-target search, true exactly when `findMulti` returns 0. -/
def findTarget (target : List Char) (s : List Char) : Bool × List Char :=
  let r := findMulti [target] s
  (r.1 == 0, r.2)

/-- `findUntil(target, terminator)` (Stream.h lines 176-191): a two-target
search, true exactly when the target (index 0) completes first. -/
def findUntil (target terminator : List Char) (s : List Char) : Bool × List Char :=
  let r := findMulti [target, terminator] s
  (r.1 == 0, r.2)

/-- Modelled from the spec: the "naive reset-to-zero-on-mismatch" scheme that
the spec contrasts with the real algorithm — on mismatch the cursor resets to
0 and the byte is not retried.  Used only to witness that such a scheme misses
the pattern "1112" in the input "1111112". -/
def resetToZeroFind (p : List Char) (i : Nat) : List Char → Bool
  | [] => false
  | c :: rest =>
    if c = chAt p i then
      if i + 1 = p.length then true else resetToZeroFind p (i + 1) rest
    else resetToZeroFind p 0 rest

/-- Specification value of a digit run read as a decimal integer, exactly the
accumulation `value = value * 10 + (c - '0')` of the scan loop. -/
def digitsVal (ds : List Char) : Int :=
  ds.foldl (fun v c => v * 10 + digitVal c) 0

/-- Specification value of a fractional digit run: digit i (0-based) carries
weight 10^-(i+1), matching "each digit after the point multiplies a scale
factor initialized to 0.1 and multiplied by 0.1 per digit". -/
def fracVal : List Char → Rat
  | [] => 0
  | d :: ds => (((digitVal d : Int) : Rat) + fracVal ds) / 10

/-- Specification-side partial-match cursor: the length of the longest prefix
of the pattern `p` that is a suffix of the consumed text `t` (capped at
`p.length`). -/
def border (p t : List Char) : Nat :=
  Nat.findGreatest (fun k => p.take k <:+ t) p.length

/-! ### Basic character facts -/

theorem isDigitChar_iff {c : Char} : isDigitChar c = true ↔ ('0' ≤ c ∧ c ≤ '9') := by
  simp [isDigitChar]

theorem digit_ne_special {c : Char} (h : isDigitChar c = true) :
    c ≠ NO_IGNORE_CHAR ∧ c ≠ '-' ∧ c ≠ '.' := by
  rw [isDigitChar_iff] at h
  refine ⟨?_, ?_, ?_⟩ <;> rintro rfl <;> revert h <;> decide

theorem digitVal_nonneg {c : Char} (h : isDigitChar c = true) : 0 ≤ digitVal c := by
  rw [isDigitChar_iff] at h
  have h48 : '0'.toNat ≤ c.toNat := by
    have h0 := h.1
    rw [Char.le_def, UInt32.le_def, BitVec.le_def] at h0
    exact h0
  unfold digitVal
  omega

/-! ### Lemmas on the parseInt scan loop -/

theorem signUpd_minus (c : Char) (b : Bool) : signUpd '-' c b = b := by
  unfold signUpd
  split_ifs with h1 <;> rfl

theorem signUpd_digit {ig c : Char} (b : Bool) (hd : isDigitChar c = true)
    (hne : c ≠ ig) : signUpd ig c b = b := by
  unfold signUpd
  rw [if_neg hne, if_neg (digit_ne_special hd).2.1]

theorem intValUpd_digit {ig c : Char} (v : Int) (hd : isDigitChar c = true)
    (hne : c ≠ ig) : intValUpd ig c v = v * 10 + digitVal c := by
  unfold intValUpd
  rw [if_neg hne, if_neg (digit_ne_special hd).2.1, if_pos hd]

theorem parseIntCore_stop (ig : Char) :
    ∀ (s : List Char) (b : Bool) (v : Int) (c c' : Char),
      ((parseIntCore ig b v c s).2.2).head? = some c' →
      isDigitChar c' = false ∧ c' ≠ ig := by
  intro s
  induction s with
  | nil => intro b v c c' h; simp [parseIntCore] at h
  | cons d rest ih =>
    intro b v c c' h
    rw [parseIntCore] at h
    split at h
    · exact ih _ _ _ _ h
    · rename_i hcond
      push_neg at hcond
      simp only [List.head?_cons, Option.some.injEq] at h
      subst h
      exact ⟨Bool.not_eq_true _ ▸ hcond.1, hcond.2⟩

/-- C5: parseInt consumes the sign and digit run and stops at the first byte
that is neither a digit nor the ignore character, leaving that byte
unconsumed; concretely, `parseInt(SKIP_ALL)` on the stream "   -42abc"
returns -42 and leaves the stream positioned at 'a'. -/
theorem parseInt_stops_at_first_invalid :
    (∀ (la : LookaheadMode) (ig : Char) (s : List Char) (c : Char),
        (peekNextDigit la false s).1 = some c →
        ∀ c', ((parseInt la ig s).2).head? = some c' →
          isDigitChar c' = false ∧ c' ≠ ig)
    ∧ parseInt .SKIP_ALL NO_IGNORE_CHAR "   -42abc".toList = (-42, "abc".toList) := by
  constructor
  · intro la ig s c hpd c' h
    rcases hps : peekNextDigit la false s with ⟨copt, s1⟩
    rw [hps] at hpd
    simp only at hpd
    subst hpd
    simp only [parseInt, hps] at h
    exact parseIntCore_stop ig _ _ _ _ _ h
  · decide

theorem parseInt_stops_at_first_invalid_witness :
    isDigitChar 'a' = false ∧ 'a' ≠ NO_IGNORE_CHAR :=
  parseInt_stops_at_first_invalid.1 .SKIP_ALL NO_IGNORE_CHAR "   -42abc".toList '-'
    (by decide) 'a' (by decide)

/-- C6: parseInt returns 0 whenever the digit lookahead fails, and under
SKIP_NONE, if the first waiting byte is not a sign, digit, or enabled decimal
point, the lookahead fails immediately without consuming any byte, so the
stream is unchanged when 0 is returned for that reason. -/
theorem parseInt_zero_on_lookahead_fail :
    (∀ (la : LookaheadMode) (ig : Char) (s : List Char),
        (peekNextDigit la false s).1 = none →
        parseInt la ig s = (0, (peekNextDigit la false s).2))
    ∧ (∀ (ig c : Char) (s : List Char),
        ¬(c = '-' ∨ ('0' ≤ c ∧ c ≤ '9')) →
        peekNextDigit .SKIP_NONE false (c :: s) = (none, c :: s) ∧
        parseInt .SKIP_NONE ig (c :: s) = (0, c :: s)) := by
  constructor
  · intro la ig s h
    rcases hps : peekNextDigit la false s with ⟨copt, s1⟩
    rw [hps] at h
    simp only at h
    subst h
    simp [parseInt, hps]
  · intro ig c s h
    have hpd : peekNextDigit .SKIP_NONE false (c :: s) = (none, c :: s) := by
      rw [peekNextDigit, if_neg]
      rintro (h1 | h2 | ⟨h3, _⟩)
      · exact h (Or.inl h1)
      · exact h (Or.inr h2)
      · exact Bool.false_ne_true h3
    exact ⟨hpd, by simp [parseInt, hpd]⟩

theorem parseInt_zero_on_lookahead_fail_witness :
    peekNextDigit .SKIP_NONE false ('x' :: []) = (none, ['x']) ∧
    parseInt .SKIP_NONE NO_IGNORE_CHAR ('x' :: []) = (0, ['x']) :=
  parseInt_zero_on_lookahead_fail.2 NO_IGNORE_CHAR 'x' [] (by decide)

/-- C8: repeated calls to timedPeek with no intervening consuming call all
return the same byte and never advance the source cursor: the state after a
timedPeek is unchanged, so a second timedPeek returns the same result. -/
theorem timedPeek_idempotent :
    ∀ s : List Char, (timedPeek s).2 = s ∧
      (timedPeek (timedPeek s).2).1 = (timedPeek s).1 := by
  intro s
  cases s <;> simp [timedPeek]

/-! ### readBytesUntil -/

/-- C3 counterexample: the claim asserts the terminator is not consumed from
the stream, but `readBytesUntil` reads it with `timedRead`, which consumes it:
on "abc,def" with terminator ',' the remaining stream is "def", not ",def". -/
theorem readBytesUntil_cex :
    readBytesUntil ',' 10 "abc,def".toList = ("abc".toList, "def".toList) ∧
    (readBytesUntil ',' 10 "abc,def".toList).2.head? ≠ some ',' := by
  exact ⟨by decide, by decide⟩

/-- C3 amended: readBytesUntil stops appending the moment a byte equal to the
terminator is read; the terminator is consumed from the stream but not stored
in the buffer, and the count of bytes stored before that point is returned
(the buffer contents, whose length is the count). -/
theorem readBytesUntil_stops_at_terminator :
    ∀ (term : Char) (pre rest : List Char) (n : Nat),
      pre.length < n → (∀ c ∈ pre, c ≠ term) →
      readBytesUntil term n (pre ++ term :: rest) = (pre, rest) := by
  intro term pre
  induction pre with
  | nil =>
    intro rest n hn _
    match n, hn with
    | n + 1, _ => simp [readBytesUntil]
  | cons c pre ih =>
    intro rest n hn hne
    match n, hn with
    | n + 1, hn =>
      have hc : c ≠ term := hne c (by simp)
      simp only [List.cons_append, readBytesUntil, if_neg hc, List.append_eq]
      rw [ih rest n (by simp at hn; omega) (fun x hx => hne x (by simp [hx]))]

theorem readBytesUntil_stops_at_terminator_witness :
    readBytesUntil ',' 10 ("ab".toList ++ ',' :: "c".toList) = ("ab".toList, "c".toList) :=
  readBytesUntil_stops_at_terminator ',' "ab".toList "c".toList 10 (by decide) (by decide)

/-! ### Sign handling in the scan loop -/

/-- C4 counterexample: the scan loop's continuation condition is
`(c >= '0' && c <= '9') || c == ignore`, so a '-' encountered after digits
terminates the scan instead of being accepted and negating the result: on
"1-2" parseInt returns 1 (not a negated value) and the '-' is left
unconsumed. -/
theorem parseInt_midrun_minus_cex :
    parseInt .SKIP_ALL NO_IGNORE_CHAR "1-2".toList = (1, "-2".toList) ∧
    (parseInt .SKIP_ALL NO_IGNORE_CHAR "1-2".toList).2.head? = some '-' ∧
    (parseInt .SKIP_ALL NO_IGNORE_CHAR "1-2".toList).1 ≠ -12 := by
  exact ⟨by decide, by decide, by decide⟩

theorem parseIntCore_digits_run :
    ∀ (ds : List Char) (rest : List Char) (b : Bool) (v : Int) (c : Char),
      isDigitChar c = true → (∀ x ∈ ds, isDigitChar x = true) →
      parseIntCore NO_IGNORE_CHAR b v c (ds ++ '-' :: rest) =
        (b, ds.foldl (fun a d => a * 10 + digitVal d) (v * 10 + digitVal c),
         '-' :: rest) := by
  intro ds
  induction ds with
  | nil =>
    intro rest b v c hc _
    have h := digit_ne_special hc
    simp only [List.nil_append, parseIntCore]
    rw [if_neg ?hcond1, signUpd_digit b hc h.1, intValUpd_digit v hc h.1,
      List.foldl_nil]
    case hcond1 =>
      rintro (hd | he)
      · exact absurd hd (by decide)
      · exact absurd he (by decide)
  | cons d ds ih =>
    intro rest b v c hc hds
    have h := digit_ne_special hc
    have hd : isDigitChar d = true := hds d (by simp)
    simp only [List.cons_append, parseIntCore, List.append_eq]
    rw [if_pos (Or.inl hd), signUpd_digit b hc h.1, intValUpd_digit v hc h.1,
      ih rest b _ d hd (fun x hx => hds x (by simp [hx])), List.foldl_cons]

theorem parseIntCore_minus_flag :
    ∀ (s : List Char) (v : Int) (c : Char),
      (parseIntCore '-' false v c s).1 = false := by
  intro s
  induction s with
  | nil => intro v c; simp [parseIntCore, signUpd_minus]
  | cons d rest ih =>
    intro v c
    rw [parseIntCore]
    split
    · rw [signUpd_minus]; exact ih _ _
    · simp [signUpd_minus]

theorem parseFloatCore_minus_flag :
    ∀ (s : List Char) (b : Bool) (v f : Rat) (c : Char),
      (parseFloatCore '-' false b v f c s).1 = false := by
  intro s
  induction s with
  | nil => intro b v f c; simp [parseFloatCore, signUpd_minus]
  | cons d rest ih =>
    intro b v f c
    rw [parseFloatCore]
    split
    · rw [signUpd_minus]; exact ih _ _ _ _
    · simp [signUpd_minus]

theorem intValUpd_nonneg {ig c : Char} {v : Int} (h : 0 ≤ v) :
    0 ≤ intValUpd ig c v := by
  unfold intValUpd
  split_ifs with h1 h2 h3
  · exact h
  · exact h
  · have h4 := digitVal_nonneg h3
    omega
  · exact h

theorem parseIntCore_value_nonneg (ig : Char) :
    ∀ (s : List Char) (b : Bool) (v : Int) (c : Char), 0 ≤ v →
      0 ≤ (parseIntCore ig b v c s).2.1 := by
  intro s
  induction s with
  | nil => intro b v c h; exact intValUpd_nonneg h
  | cons d rest ih =>
    intro b v c h
    rw [parseIntCore]
    split
    · exact ih _ _ _ (intValUpd_nonneg h)
    · exact intValUpd_nonneg h

/-- C10: when the ignore argument equals the sign character '-', every '-' in
the token is discarded by the ignore test before the sign test can run, so
the negative flag is never set (for parseInt and parseFloat alike), the
result of parseInt is never negated (hence never negative), and
`parseInt(SKIP_ALL, '-')` on "-42" returns 42, not -42. -/
theorem parse_ignore_minus_never_negates :
    (∀ (s : List Char) (v : Int) (c : Char),
        (parseIntCore '-' false v c s).1 = false)
    ∧ (∀ (s : List Char) (b : Bool) (v f : Rat) (c : Char),
        (parseFloatCore '-' false b v f c s).1 = false)
    ∧ (∀ (la : LookaheadMode) (s : List Char), 0 ≤ (parseInt la '-' s).1)
    ∧ parseInt .SKIP_ALL '-' "-42".toList = (42, [])
    ∧ parseFloat .SKIP_ALL '-' "-42".toList = (42, []) := by
  refine ⟨parseIntCore_minus_flag, parseFloatCore_minus_flag, ?_, by decide, ?_⟩
  case refine_2 =>
    have hl : "-42".toList = ['-', '4', '2'] := by decide
    have hpd : peekNextDigit .SKIP_ALL true ['-', '4', '2'] =
        (some '-', ['-', '4', '2']) := by decide
    rw [hl, parseFloat.eq_def, hpd]
    simp +decide [parseFloatCore, signUpd, fracUpd, floatValUpd, floatScaleUpd,
      isDigitChar, show digitVal '4' = 4 from by decide,
      show digitVal '2' = 2 from by decide]
    norm_num
  intro la s
  rcases hps : peekNextDigit la false s with ⟨copt, s1⟩
  cases copt with
  | none => simp [parseInt, hps]
  | some c =>
    simp only [parseInt, hps, parseIntCore_minus_flag, if_false, Bool.false_eq_true]
    exact parseIntCore_value_nonneg '-' _ _ _ _ le_rfl

/-! ### parseFloat decimal-point handling -/

theorem fracUpd_digit {c : Char} (b : Bool) (hd : isDigitChar c = true) :
    fracUpd NO_IGNORE_CHAR c b = b := by
  have h := digit_ne_special hd
  unfold fracUpd
  rw [if_neg h.1, if_neg h.2.1, if_neg h.2.2]

theorem floatValUpd_digit_int {c : Char} (v f : Rat) (hd : isDigitChar c = true) :
    floatValUpd NO_IGNORE_CHAR c false v f = v * 10 + ((digitVal c : Int) : Rat) := by
  have h := digit_ne_special hd
  unfold floatValUpd
  rw [if_neg h.1, if_neg h.2.1, if_neg h.2.2, if_pos hd]
  simp

theorem floatValUpd_digit_frac {c : Char} (v f : Rat) (hd : isDigitChar c = true) :
    floatValUpd NO_IGNORE_CHAR c true v f =
      v + (f * (1/10)) * ((digitVal c : Int) : Rat) := by
  have h := digit_ne_special hd
  unfold floatValUpd
  rw [if_neg h.1, if_neg h.2.1, if_neg h.2.2, if_pos hd]
  simp

theorem floatScaleUpd_digit_int {c : Char} (f : Rat) (hd : isDigitChar c = true) :
    floatScaleUpd NO_IGNORE_CHAR c false f = f := by
  have h := digit_ne_special hd
  unfold floatScaleUpd
  rw [if_neg h.1, if_neg h.2.1, if_neg h.2.2, if_pos hd]
  simp

theorem floatScaleUpd_digit_frac {c : Char} (f : Rat) (hd : isDigitChar c = true) :
    floatScaleUpd NO_IGNORE_CHAR c true f = f * (1/10) := by
  have h := digit_ne_special hd
  unfold floatScaleUpd
  rw [if_neg h.1, if_neg h.2.1, if_neg h.2.2, if_pos hd]
  simp

theorem fracUpd_point (b : Bool) : fracUpd NO_IGNORE_CHAR '.' b = true := by
  unfold fracUpd
  rw [if_neg (by decide), if_neg (by decide), if_pos rfl]

theorem floatValUpd_point (b : Bool) (v f : Rat) :
    floatValUpd NO_IGNORE_CHAR '.' b v f = v := by
  unfold floatValUpd
  rw [if_neg (by decide), if_neg (by decide), if_pos rfl]

theorem floatScaleUpd_point (b : Bool) (f : Rat) :
    floatScaleUpd NO_IGNORE_CHAR '.' b f = f := by
  unfold floatScaleUpd
  rw [if_neg (by decide), if_neg (by decide), if_pos rfl]

theorem parseFloatCore_frac_run :
    ∀ (ds rest : List Char) (v f : Rat) (c : Char),
      isDigitChar c = true → (∀ x ∈ ds, isDigitChar x = true) →
      parseFloatCore NO_IGNORE_CHAR false true v f c (ds ++ '.' :: rest) =
        (false, v + f * fracVal (c :: ds), '.' :: rest) := by
  intro ds
  induction ds with
  | nil =>
    intro rest v f c hc _
    have h := digit_ne_special hc
    simp only [List.nil_append, parseFloatCore]
    rw [if_neg ?hc1, signUpd_digit false hc h.1, floatValUpd_digit_frac v f hc]
    · rw [show v + f * fracVal (c :: []) =
          v + (f * (1/10)) * ((digitVal c : Int) : Rat) from by
        rw [fracVal, fracVal]; ring]
    case hc1 =>
      rw [fracUpd_digit true hc]
      rintro (h1 | ⟨_, h2b⟩ | h3)
      · exact absurd h1 (by decide)
      · exact h2b rfl
      · exact absurd h3 (by decide)
  | cons d ds ih =>
    intro rest v f c hc hds
    have h := digit_ne_special hc
    have hd : isDigitChar d = true := hds d (by simp)
    simp only [List.cons_append, parseFloatCore, List.append_eq]
    rw [if_pos (Or.inl hd), signUpd_digit false hc h.1, fracUpd_digit true hc,
      floatValUpd_digit_frac v f hc, floatScaleUpd_digit_frac f hc,
      ih rest _ _ d hd (fun x hx => hds x (by simp [hx]))]
    rw [show v + f * fracVal (c :: d :: ds) =
        v + (f * (1/10)) * ((digitVal c : Int) : Rat) +
          (f * (1/10)) * fracVal (d :: ds) from by
      rw [fracVal]; ring]

theorem parseFloatCore_point_run :
    ∀ (ds2 rest : List Char) (v : Rat),
      (∀ x ∈ ds2, isDigitChar x = true) →
      parseFloatCore NO_IGNORE_CHAR false false v 1 '.' (ds2 ++ '.' :: rest) =
        (false, v + fracVal ds2, '.' :: rest) := by
  intro ds2 rest v hds
  cases ds2 with
  | nil =>
    simp only [List.nil_append, parseFloatCore]
    rw [if_neg ?hc1, show signUpd NO_IGNORE_CHAR '.' false = false from by decide,
      floatValUpd_point false v 1]
    · simp [fracVal]
    case hc1 =>
      rw [fracUpd_point false]
      rintro (h1 | ⟨_, h2b⟩ | h3)
      · exact absurd h1 (by decide)
      · exact h2b rfl
      · exact absurd h3 (by decide)
  | cons d ds =>
    have hd : isDigitChar d = true := hds d (by simp)
    simp only [List.cons_append, parseFloatCore, List.append_eq]
    rw [if_pos (Or.inl hd),
      show signUpd NO_IGNORE_CHAR '.' false = false from by decide,
      fracUpd_point false, floatValUpd_point false v 1, floatScaleUpd_point false 1,
      parseFloatCore_frac_run ds rest v 1 d hd (fun x hx => hds x (by simp [hx]))]
    simp

theorem parseFloatCore_int_run :
    ∀ (ds ds2 rest : List Char) (v : Rat) (c : Char),
      isDigitChar c = true → (∀ x ∈ ds, isDigitChar x = true) →
      (∀ x ∈ ds2, isDigitChar x = true) →
      parseFloatCore NO_IGNORE_CHAR false false v 1 c
          (ds ++ '.' :: (ds2 ++ '.' :: rest)) =
        (false,
         ds.foldl (fun a d => a * 10 + ((digitVal d : Int) : Rat))
           (v * 10 + ((digitVal c : Int) : Rat)) + fracVal ds2,
         '.' :: rest) := by
  intro ds
  induction ds with
  | nil =>
    intro ds2 rest v c hc _ hds2
    have h := digit_ne_special hc
    simp only [List.nil_append, parseFloatCore, List.append_eq]
    rw [if_pos ?hc1, signUpd_digit false hc h.1, fracUpd_digit false hc,
      floatValUpd_digit_int v 1 hc, floatScaleUpd_digit_int 1 hc,
      parseFloatCore_point_run ds2 rest _ hds2, List.foldl_nil]
    case hc1 =>
      refine Or.inr (Or.inl ⟨by trivial, ?_⟩)
      rw [fracUpd_digit false hc]
      simp
  | cons d ds ih =>
    intro ds2 rest v c hc hds hds2
    have h := digit_ne_special hc
    have hd : isDigitChar d = true := hds d (by simp)
    simp only [List.cons_append, parseFloatCore, List.append_eq]
    rw [if_pos (Or.inl hd), signUpd_digit false hc h.1, fracUpd_digit false hc,
      floatValUpd_digit_int v 1 hc, floatScaleUpd_digit_int 1 hc,
      ih ds2 rest _ d hd (fun x hx => hds x (by simp [hx])) hds2, List.foldl_cons]

theorem ratFold_digits :
    ∀ (ds : List Char) (v : Int),
      ((ds.foldl (fun a d => a * 10 + digitVal d) v : Int) : Rat) =
        ds.foldl (fun a d => a * 10 + ((digitVal d : Int) : Rat)) ((v : Int) : Rat) := by
  intro ds
  induction ds with
  | nil => intro v; simp
  | cons d ds ih =>
    intro v
    rw [List.foldl_cons, List.foldl_cons, ih]
    have hv : ((v * 10 + digitVal d : Int) : Rat) =
        ((v : Int) : Rat) * 10 + ((digitVal d : Int) : Rat) := by
      push_cast
      ring
    rw [hv]

/-- C9: parseFloat recognizes exactly one decimal point, switching to
fractional accumulation where each digit after the point carries weight 0.1,
0.01, ... (the scale factor is multiplied by 0.1 per digit), and a second
decimal point terminates the scan as an ordinary non-digit; concretely,
`parseFloat(SKIP_ALL)` on the stream "3.14," returns 3.14 and leaves the
stream positioned at ','.  (The C++ `double` arithmetic is modelled exactly
over the rationals.) -/
theorem parseFloat_single_decimal_point :
    (∀ (ds1 ds2 rest : List Char), ds1 ≠ [] →
        (∀ c ∈ ds1, isDigitChar c = true) → (∀ c ∈ ds2, isDigitChar c = true) →
        parseFloat .SKIP_ALL NO_IGNORE_CHAR (ds1 ++ '.' :: (ds2 ++ '.' :: rest)) =
          (((digitsVal ds1 : Int) : Rat) + fracVal ds2, '.' :: rest))
    ∧ parseFloat .SKIP_ALL NO_IGNORE_CHAR "3.14,".toList = ((157 : Rat)/50, [',']) := by
  constructor
  · intro ds1 ds2 rest hne hds1 hds2
    match ds1, hne with
    | d :: ds1, _ =>
      have hd : isDigitChar d = true := hds1 d (by simp)
      have hpd : peekNextDigit .SKIP_ALL true
          (d :: (ds1 ++ '.' :: (ds2 ++ '.' :: rest))) =
          (some d, d :: (ds1 ++ '.' :: (ds2 ++ '.' :: rest))) := by
        rw [peekNextDigit, if_pos (Or.inr (Or.inl (isDigitChar_iff.mp hd)))]
      rw [List.cons_append, parseFloat.eq_def, hpd]
      simp only [List.tail_cons]
      rw [parseFloatCore_int_run ds1 ds2 rest 0 d hd
        (fun x hx => hds1 x (by simp [hx])) hds2]
      simp only [Bool.false_eq_true, if_false, Prod.mk.injEq]
      refine ⟨?_, by trivial⟩
      have hcast : ((digitsVal (d :: ds1) : Int) : Rat) =
          List.foldl (fun a x => a * 10 + ((digitVal x : Int) : Rat))
            (0 * 10 + ((digitVal d : Int) : Rat)) ds1 := by
        rw [digitsVal, List.foldl_cons, ratFold_digits]
        have h0 : ((0 * 10 + digitVal d : Int) : Rat) =
            0 * 10 + ((digitVal d : Int) : Rat) := by
          push_cast
          ring
        rw [← h0]
      rw [hcast]
  · have hl : "3.14,".toList = ['3', '.', '1', '4', ','] := by decide
    have hpd : peekNextDigit .SKIP_ALL true ['3', '.', '1', '4', ','] =
        (some '3', ['3', '.', '1', '4', ',']) := by decide
    rw [hl, parseFloat.eq_def, hpd]
    simp +decide [parseFloatCore, signUpd, fracUpd, floatValUpd, floatScaleUpd,
      isDigitChar, show digitVal '3' = 3 from by decide,
      show digitVal '1' = 1 from by decide, show digitVal '4' = 4 from by decide]
    norm_num

theorem parseFloat_single_decimal_point_witness :
    parseFloat .SKIP_ALL NO_IGNORE_CHAR (['1'] ++ '.' :: ([] ++ '.' :: [])) =
      (((digitsVal ['1'] : Int) : Rat) + fracVal [], '.' :: []) :=
  parseFloat_single_decimal_point.1 ['1'] [] [] (by decide) (by decide) (by decide)

theorem parseFloatCore_digits_run :
    ∀ (ds rest : List Char) (b : Bool) (v : Rat) (c : Char),
      isDigitChar c = true → (∀ x ∈ ds, isDigitChar x = true) →
      parseFloatCore NO_IGNORE_CHAR b false v 1 c (ds ++ '-' :: rest) =
        (b, ds.foldl (fun a d => a * 10 + ((digitVal d : Int) : Rat))
              (v * 10 + ((digitVal c : Int) : Rat)),
         '-' :: rest) := by
  intro ds
  induction ds with
  | nil =>
    intro rest b v c hc _
    have h := digit_ne_special hc
    simp only [List.nil_append, parseFloatCore]
    rw [if_neg ?hcond1, signUpd_digit b hc h.1, floatValUpd_digit_int v 1 hc,
      List.foldl_nil]
    case hcond1 =>
      rintro (h1 | ⟨h2, _⟩ | h3)
      · exact absurd h1 (by decide)
      · exact absurd h2 (by decide)
      · exact absurd h3 (by decide)
  | cons d ds ih =>
    intro rest b v c hc hds
    have h := digit_ne_special hc
    have hd : isDigitChar d = true := hds d (by simp)
    simp only [List.cons_append, parseFloatCore, List.append_eq]
    rw [if_pos (Or.inl hd), signUpd_digit b hc h.1, fracUpd_digit false hc,
      floatValUpd_digit_int v 1 hc, floatScaleUpd_digit_int 1 hc,
      ih rest b _ d hd (fun x hx => hds x (by simp [hx])), List.foldl_cons]

/-- C4 amended: parseInt and parseFloat give a '-' sign effect only as the
first character accepted by the digit lookahead; a '-' encountered after one
or more digits terminates the scan of either parser — the '-' is left
unconsumed and the result is the un-negated value accumulated from the
digits (unless '-' is the ignore character, in which case it is skipped
without sign effect, as in C10). -/
theorem parse_midrun_minus_amended :
    (∀ (ds rest : List Char), ds ≠ [] → (∀ c ∈ ds, isDigitChar c = true) →
        parseInt .SKIP_ALL NO_IGNORE_CHAR (ds ++ '-' :: rest) =
          (digitsVal ds, '-' :: rest))
    ∧ (∀ (ds rest : List Char), ds ≠ [] → (∀ c ∈ ds, isDigitChar c = true) →
        parseFloat .SKIP_ALL NO_IGNORE_CHAR (ds ++ '-' :: rest) =
          (((digitsVal ds : Int) : Rat), '-' :: rest)) := by
  constructor
  · intro ds rest hne hds
    match ds, hne with
    | d :: ds, _ =>
      have hd : isDigitChar d = true := hds d (by simp)
      have hpd : peekNextDigit .SKIP_ALL false (d :: (ds ++ '-' :: rest)) =
          (some d, d :: (ds ++ '-' :: rest)) := by
        rw [peekNextDigit, if_pos (Or.inr (Or.inl (isDigitChar_iff.mp hd)))]
      rw [List.cons_append, parseInt.eq_def, hpd]
      simp only [List.tail_cons]
      rw [parseIntCore_digits_run ds rest false 0 d hd
        (fun x hx => hds x (by simp [hx]))]
      simp [digitsVal, List.foldl_cons]
  · intro ds rest hne hds
    match ds, hne with
    | d :: ds, _ =>
      have hd : isDigitChar d = true := hds d (by simp)
      have hpd : peekNextDigit .SKIP_ALL true (d :: (ds ++ '-' :: rest)) =
          (some d, d :: (ds ++ '-' :: rest)) := by
        rw [peekNextDigit, if_pos (Or.inr (Or.inl (isDigitChar_iff.mp hd)))]
      rw [List.cons_append, parseFloat.eq_def, hpd]
      simp only [List.tail_cons]
      rw [parseFloatCore_digits_run ds rest false 0 d hd
        (fun x hx => hds x (by simp [hx]))]
      simp only [Bool.false_eq_true, if_false, Prod.mk.injEq]
      refine ⟨?_, by trivial⟩
      have hcast : ((digitsVal (d :: ds) : Int) : Rat) =
          List.foldl (fun a x => a * 10 + ((digitVal x : Int) : Rat))
            (0 * 10 + ((digitVal d : Int) : Rat)) ds := by
        rw [digitsVal, List.foldl_cons, ratFold_digits]
        have h0 : ((0 * 10 + digitVal d : Int) : Rat) =
            0 * 10 + ((digitVal d : Int) : Rat) := by
          push_cast
          ring
        rw [← h0]
      rw [hcast]

theorem parse_midrun_minus_amended_witness :
    parseInt .SKIP_ALL NO_IGNORE_CHAR (['4', '2'] ++ '-' :: ['x']) =
      (digitsVal ['4', '2'], '-' :: ['x']) ∧
    parseFloat .SKIP_ALL NO_IGNORE_CHAR (['4', '2'] ++ '-' :: ['x']) =
      (((digitsVal ['4', '2'] : Int) : Rat), '-' :: ['x']) :=
  ⟨parse_midrun_minus_amended.1 ['4', '2'] ['x'] (by decide) (by decide),
   parse_midrun_minus_amended.2 ['4', '2'] ['x'] (by decide) (by decide)⟩

/-! ### Suffix and border machinery for the multi-pattern search -/

theorem concat_suffix_concat {l t : List Char} {a b : Char} :
    l ++ [a] <:+ t ++ [b] ↔ a = b ∧ l <:+ t := by
  rw [List.suffix_concat_iff]
  constructor
  · rintro (hnil | ⟨u, hu, hsuf⟩)
    · exact absurd hnil (by simp)
    · obtain ⟨h1, h2⟩ := List.append_inj' hu rfl
      subst h1
      exact ⟨by simpa using h2, hsuf⟩
  · rintro ⟨rfl, hsuf⟩
    exact Or.inr ⟨l, rfl, hsuf⟩

theorem chAt_eq_getElem {p : List Char} {k : Nat} (hk : k < p.length) :
    chAt p k = p[k] := by
  rw [chAt, List.getD_eq_getElem?_getD, List.getElem?_eq_getElem hk, Option.getD_some]

theorem take_succ_suffix {p t : List Char} {c : Char} {k : Nat}
    (hk : k < p.length) :
    p.take (k + 1) <:+ t ++ [c] ↔ p.take k <:+ t ∧ chAt p k = c := by
  rw [← List.take_concat_get p k hk, List.concat_eq_append, concat_suffix_concat,
    chAt_eq_getElem hk, and_comm]

theorem border_le (p t : List Char) : border p t ≤ p.length :=
  Nat.findGreatest_le p.length

theorem border_suffix (p t : List Char) : p.take (border p t) <:+ t := by
  have h : ∀ m, Nat.findGreatest (fun k => p.take k <:+ t) p.length = m →
      p.take m <:+ t := by
    intro m hm
    rcases Nat.eq_zero_or_pos m with h0 | h0
    · subst h0; simp
    · exact Nat.findGreatest_of_ne_zero hm (by omega)
  exact h _ rfl

theorem le_border {p t : List Char} {k : Nat} (hk : k ≤ p.length)
    (h : p.take k <:+ t) : k ≤ border p t :=
  Nat.le_findGreatest hk h

theorem border_lt_of_not_suffix {p t : List Char} (hp : p ≠ [])
    (hno : ¬ p <:+ t) : border p t < p.length := by
  rcases Nat.lt_or_ge (border p t) p.length with h | h
  · exact h
  · exfalso
    have heq : border p t = p.length := Nat.le_antisymm (border_le p t) h
    have hlen : p.length ≠ 0 := by
      simpa using hp
    have := Nat.findGreatest_of_ne_zero heq hlen
    rw [List.take_length] at this
    exact hno this

theorem border_nil {p : List Char} (hp : p ≠ []) : border p [] = 0 := by
  rw [border, Nat.findGreatest_eq_zero_iff]
  intro n hn _ hsuf
  have h0 := List.suffix_nil.mp hsuf
  have h1 : (p.take n).length = 0 := by rw [h0]; rfl
  rw [List.length_take] at h1
  have h2 : p.length ≠ 0 := by simpa using hp
  omega

/-- The completion test of the match branch: given that no occurrence of `p`
ends at the current text `t`, the next byte `c` completes an occurrence of `p`
exactly when the cursor sits at `p.length - 1` and `c` is the last pattern
character — i.e. when the code's `++t->index == t->len` fires. -/
theorem completes_iff {p t : List Char} {c : Char} (hp : p ≠ [])
    (hno : ¬ p <:+ t) :
    p <:+ t ++ [c] ↔ (c = chAt p (border p t) ∧ border p t + 1 = p.length) := by
  have hlen : 0 < p.length := List.length_pos.mpr hp
  constructor
  · intro hocc
    obtain ⟨m, hm⟩ : ∃ m, p.length = m + 1 := ⟨p.length - 1, by omega⟩
    have hmlt : m < p.length := by omega
    have htk : p.take (m + 1) = p := by rw [← hm, List.take_length]
    rw [← htk] at hocc
    obtain ⟨h1, h2⟩ := (take_succ_suffix hmlt).mp hocc
    have hble : m ≤ border p t := le_border (by omega) h1
    have hblt : border p t < p.length := border_lt_of_not_suffix hp hno
    have hbm : border p t = m := by omega
    rw [hbm]
    exact ⟨h2.symm, by omega⟩
  · rintro ⟨hc, hlen1⟩
    have hblt : border p t < p.length := border_lt_of_not_suffix hp hno
    have h := (take_succ_suffix hblt).mpr ⟨border_suffix p t, hc.symm⟩
    rw [hlen1, List.take_length] at h
    exact h

/-- The inner verification loop checks exactly that the length-`j` prefix of
the pattern recurs as the suffix of the length-`orig` prefix: `str[i] ==
str[i + diff]` for all `i < j` with `diff = orig - j`. -/
theorem borderCheck_iff {p : List Char} {j orig : Nat} (hj : j ≤ orig)
    (ho : orig ≤ p.length) :
    borderCheck p j (orig - j) = true ↔ p.take j <:+ p.take orig := by
  have hjp : j ≤ p.length := le_trans hj ho
  have hlo : (p.take orig).length = orig := by
    rw [List.length_take]; omega
  have hlj : (p.take j).length = j := by
    rw [List.length_take]; omega
  rw [borderCheck, List.all_eq_true]
  rw [List.suffix_iff_eq_drop, hlo, hlj]
  constructor
  · intro hall
    apply List.ext_getElem
    · rw [hlj, List.length_drop, hlo]; omega
    · intro i h1 h2
      have hij : i < j := by rw [hlj] at h1; exact h1
      have hmem := hall i (List.mem_range.mpr hij)
      rw [decide_eq_true_eq] at hmem
      rw [List.getElem_take, List.getElem_drop, List.getElem_take]
      have hb1 : i < p.length := by omega
      have hb2 : (orig - j) + i < p.length := by omega
      rw [← chAt_eq_getElem hb1, ← chAt_eq_getElem hb2,
        show (orig - j) + i = i + (orig - j) by omega]
      exact hmem
  · intro heq i hi
    have hij : i < j := List.mem_range.mp hi
    rw [decide_eq_true_eq]
    have h2 : i < (List.drop (orig - j) (p.take orig)).length := by
      rw [List.length_drop, hlo]; omega
    have h1 : i < (p.take j).length := by omega
    have := List.getElem_of_eq heq h1
    rw [List.getElem_take, List.getElem_drop, List.getElem_take] at this
    have hb1 : i < p.length := by omega
    have hb2 : i + (orig - j) < p.length := by omega
    rw [chAt_eq_getElem hb1, chAt_eq_getElem hb2]
    rw [this]
    congr 1
    omega

/-- The walk-back loop entered with candidate bound `j` computes the largest
`k ≤ j` such that `p[k-1]` matches the incoming byte and the length-`(k-1)`
prefix of `p` recurs as a suffix of the length-`orig` prefix (0 when no such
`k` exists): the first candidate, scanned downwards, satisfying the byte test
and the `borderCheck` test, incremented by one. -/
theorem backtrack_eq {p : List Char} {orig : Nat} {c : Char} :
    ∀ j, j ≤ orig → orig ≤ p.length →
    backtrack p orig c j =
      Nat.findGreatest
        (fun k => 0 < k ∧ c = chAt p (k - 1) ∧ p.take (k - 1) <:+ p.take orig) j := by
  intro j
  induction j with
  | zero => intro _ _; rfl
  | succ j ih =>
    intro hj ho
    have hj' : j ≤ orig := Nat.le_of_succ_le hj
    rw [backtrack, Nat.findGreatest_succ]
    by_cases hc : c = chAt p j
    · rw [if_pos hc]
      by_cases hz : j = 0
      · subst hz
        rw [if_pos rfl, if_pos]
        refine ⟨Nat.one_pos, ?_, ?_⟩
        · simpa using hc
        · simp
      · rw [if_neg hz]
        by_cases hbc : borderCheck p j (orig - j) = true
        · rw [if_pos hbc, if_pos]
          refine ⟨Nat.succ_pos j, ?_, ?_⟩
          · simpa using hc
          · simpa using (borderCheck_iff hj' ho).mp hbc
        · rw [if_neg hbc, if_neg, ih hj' ho]
          rintro ⟨-, -, hsuf⟩
          exact hbc ((borderCheck_iff hj' ho).mpr (by simpa using hsuf))
    · rw [if_neg hc, if_neg, ih hj' ho]
      rintro ⟨-, hceq, -⟩
      exact hc (by simpa using hceq)

/-- One-byte evolution of a non-completing cursor: starting from the
canonical cursor (the border of the consumed text), the code's per-byte
update — advance on match, else walk back via `backtrack` — lands exactly on
the border of the extended text. -/
theorem stepIndex_eq {p t : List Char} {c : Char} (hp : p ≠ [])
    (hno : ¬ p <:+ t) (hcomp : ¬ p <:+ t ++ [c]) :
    stepIndex p c (border p t) = border p (t ++ [c]) := by
  have hblt : border p t < p.length := border_lt_of_not_suffix hp hno
  set i := border p t with hi
  rw [stepIndex]
  by_cases hc : c = chAt p i
  · rw [if_pos hc]
    have hne : i + 1 ≠ p.length := fun h =>
      hcomp ((completes_iff hp hno).mpr ⟨hc, h⟩)
    symm
    rw [border, Nat.findGreatest_eq_iff]
    refine ⟨by omega, fun _ => ?_, fun n hn1 hn2 hsuf => ?_⟩
    · exact (take_succ_suffix hblt).mpr ⟨border_suffix p t, hc.symm⟩
    · obtain ⟨m, rfl⟩ : ∃ m, n = m + 1 := ⟨n - 1, by omega⟩
      have hm : m < p.length := by omega
      obtain ⟨h1, _⟩ := (take_succ_suffix hm).mp hsuf
      have hle : m ≤ i := le_border (by omega) h1
      omega
  · rw [if_neg hc]
    by_cases hz : i = 0
    · rw [if_pos hz]
      symm
      rw [border, Nat.findGreatest_eq_zero_iff]
      intro n hn1 hn2 hsuf
      obtain ⟨m, rfl⟩ : ∃ m, n = m + 1 := ⟨n - 1, by omega⟩
      have hm : m < p.length := by omega
      obtain ⟨h1, h2⟩ := (take_succ_suffix hm).mp hsuf
      have hmi : m ≤ i := le_border (by omega) h1
      have hmz : m = i := by omega
      exact hc (hmz ▸ h2).symm
    · rw [if_neg hz, backtrack_eq i (le_refl i) (le_of_lt hblt)]
      symm
      rw [border, Nat.findGreatest_eq_iff]
      set m := Nat.findGreatest
        (fun k => 0 < k ∧ c = chAt p (k - 1) ∧ p.take (k - 1) <:+ p.take i) i
        with hm
      have hmle : m ≤ i := Nat.findGreatest_le i
      refine ⟨by omega, fun hm0 => ?_, fun n hn1 hn2 hsuf => ?_⟩
      · obtain ⟨hpos, hchar, hsuf'⟩ := Nat.findGreatest_of_ne_zero hm.symm hm0
        have hmm : m - 1 < p.length := by omega
        have htr : p.take (m - 1) <:+ t := hsuf'.trans (border_suffix p t)
        have h2 := (take_succ_suffix hmm).mpr ⟨htr, hchar.symm⟩
        rwa [show m - 1 + 1 = m by omega] at h2
      · obtain ⟨k, rfl⟩ : ∃ k, n = k + 1 := ⟨n - 1, by omega⟩
        have hk : k < p.length := by omega
        obtain ⟨h1, h2⟩ := (take_succ_suffix hk).mp hsuf
        have hki : k ≤ i := le_border (by omega) h1
        have hkne : k ≠ i := fun h => hc (h ▸ h2).symm
        have hsub : p.take k <:+ p.take i :=
          List.suffix_of_suffix_length_le h1 (border_suffix p t) (by
            rw [List.length_take, List.length_take]
            omega)
        have hle : k + 1 ≤ m :=
          Nat.le_findGreatest (by omega)
            ⟨Nat.succ_pos k, by simpa using h2.symm, by simpa using hsub⟩
        omega

/-- Unfolding equation of the scan loop on a delivered byte. -/
theorem findMultiLoop_cons (tgts : List MultiTarget) (c : Char) (rest : List Char) :
    findMultiLoop tgts (c :: rest) =
      match fmStep c tgts with
      | (some k, _) => ((k : Int), rest)
      | (none, tgts') => findMultiLoop tgts' rest := rfl

/-- When no target completes on byte `c`, `fmStep` returns `none` and every
cursor moves from the border of `t` to the border of `t ++ [c]`. -/
theorem fmStep_none {c : Char} :
    ∀ (ps : List (List Char)) (t : List Char),
      (∀ p ∈ ps, p ≠ [] ∧ ¬ p <:+ t ∧ ¬ p <:+ t ++ [c]) →
      fmStep c (ps.map fun p => ⟨p, border p t⟩) =
        (none, ps.map fun p => ⟨p, border p (t ++ [c])⟩) := by
  intro ps
  induction ps with
  | nil => intro t _; rfl
  | cons p ps ih =>
    intro t h
    obtain ⟨hp, hno, hcomp⟩ := h p (by simp)
    have hcond : ¬(c = chAt p (border p t) ∧ border p t + 1 = p.length) :=
      fun hcc => hcomp ((completes_iff hp hno).mpr hcc)
    simp only [List.map_cons, fmStep]
    rw [if_neg hcond, ih t (fun q hq => h q (List.mem_cons_of_mem _ hq))]
    simp [stepIndex_eq hp hno hcomp]

/-- When some target completes on byte `c`, `fmStep` reports the first
completing target in list order — which, by `completes_iff`, is the first
pattern in list order whose occurrence ends exactly at `t ++ [c]`. -/
theorem fmStep_some {c : Char} :
    ∀ (ps : List (List Char)) (t : List Char),
      (∀ p ∈ ps, p ≠ [] ∧ ¬ p <:+ t) →
      (∃ p ∈ ps, p <:+ t ++ [c]) →
      (fmStep c (ps.map fun p => ⟨p, border p t⟩)).1 =
        some (ps.findIdx fun p => decide (p <:+ t ++ [c])) := by
  intro ps
  induction ps with
  | nil => rintro t _ ⟨p, hp, _⟩; exact absurd hp (List.not_mem_nil p)
  | cons p ps ih =>
    intro t h hex
    obtain ⟨hp, hno⟩ := h p (by simp)
    by_cases hocc : p <:+ t ++ [c]
    · have hcond := (completes_iff hp hno).mp hocc
      simp only [List.map_cons, fmStep]
      rw [if_pos hcond]
      simp [List.findIdx_cons, hocc]
    · have hcond : ¬(c = chAt p (border p t) ∧ border p t + 1 = p.length) :=
        fun hcc => hocc ((completes_iff hp hno).mpr hcc)
      have hex' : ∃ q ∈ ps, q <:+ t ++ [c] := by
        obtain ⟨q, hq, hqs⟩ := hex
        rcases List.mem_cons.mp hq with rfl | hq'
        · exact absurd hqs hocc
        · exact ⟨q, hq', hqs⟩
      have hih := ih t (fun q hq => h q (List.mem_cons_of_mem _ hq)) hex'
      simp only [List.map_cons, fmStep]
      rw [if_neg hcond]
      simp [List.findIdx_cons, hocc, hih]

/-- Scan loop, no-occurrence case: if no pattern occurrence ever completes,
the loop consumes the whole source and returns the sentinel -1. -/
theorem findMultiLoop_no_occ :
    ∀ (s : List Char) (ps : List (List Char)) (t : List Char),
      (∀ p ∈ ps, p ≠ []) →
      (∀ (n : Nat), ∀ p ∈ ps, ¬ p <:+ t ++ s.take n) →
      findMultiLoop (ps.map fun p => ⟨p, border p t⟩) s = (-1, []) := by
  intro s
  induction s with
  | nil => intro ps t _ _; rfl
  | cons c s' ih =>
    intro ps t hne hno
    have hstep := fmStep_none ps t (fun p hp =>
      ⟨hne p hp, by simpa using hno 0 p hp, by simpa using hno 1 p hp⟩)
    rw [findMultiLoop_cons, hstep]
    exact ih ps (t ++ [c]) hne (fun n p hp => by
      have hn := hno (n + 1) p hp
      simpa [List.append_assoc] using hn)

/-- Scan loop, first-occurrence case: with all cursors at the borders of the
already-consumed text `t`, the loop returns the first pattern (in list order)
whose occurrence completes at the earliest position, and leaves the stream
one byte past that position. -/
theorem findMultiLoop_first_occ :
    ∀ (s : List Char) (ps : List (List Char)) (t : List Char),
      (∀ p ∈ ps, p ≠ [] ∧ ¬ p <:+ t) →
      ∀ (h : ∃ n, ∃ p ∈ ps, p <:+ t ++ s.take n),
      findMultiLoop (ps.map fun p => ⟨p, border p t⟩) s =
        (((ps.findIdx fun p => decide (p <:+ t ++ s.take (Nat.find h))) : Int),
         s.drop (Nat.find h)) := by
  intro s
  induction s with
  | nil =>
    intro ps t hne h
    exfalso
    obtain ⟨n, p, hp, hs⟩ := h
    exact (hne p hp).2 (by simpa using hs)
  | cons c s' ih =>
    intro ps t hne h
    by_cases hocc1 : ∃ p ∈ ps, p <:+ t ++ [c]
    · have hfind : Nat.find h = 1 := by
        rw [Nat.find_eq_iff]
        refine ⟨?_, ?_⟩
        · obtain ⟨p, hp, hs⟩ := hocc1
          exact ⟨p, hp, by simpa using hs⟩
        · intro m hm
          have hm0 : m = 0 := by omega
          subst hm0
          rintro ⟨p, hp, hs⟩
          exact (hne p hp).2 (by simpa using hs)
      have hstep1 := fmStep_some ps t hne hocc1
      rcases hfs : fmStep c (ps.map fun p => ⟨p, border p t⟩) with ⟨r1, tgts1⟩
      rw [hfs] at hstep1
      simp only at hstep1
      rw [findMultiLoop_cons, hfs, hstep1, hfind]
      simp
    · push_neg at hocc1
      have hstep := fmStep_none ps t (fun p hp =>
        ⟨(hne p hp).1, (hne p hp).2, hocc1 p hp⟩)
      have hne' : ∀ p ∈ ps, p ≠ [] ∧ ¬ p <:+ t ++ [c] := fun p hp =>
        ⟨(hne p hp).1, hocc1 p hp⟩
      have h' : ∃ n, ∃ p ∈ ps, p <:+ (t ++ [c]) ++ s'.take n := by
        obtain ⟨n, p, hp, hs⟩ := h
        cases n with
        | zero => exact absurd (by simpa using hs) (hne p hp).2
        | succ m =>
          refine ⟨m, p, hp, ?_⟩
          have hs' : p <:+ t ++ (c :: s'.take m) := by simpa using hs
          simpa [List.append_assoc] using hs'
      have hfind : Nat.find h = Nat.find h' + 1 := by
        rw [Nat.find_eq_iff]
        refine ⟨?_, ?_⟩
        · obtain ⟨p, hp, hs⟩ := Nat.find_spec h'
          exact ⟨p, hp, by simpa [List.append_assoc] using hs⟩
        · intro m hm
          cases m with
          | zero =>
            rintro ⟨p, hp, hs⟩
            exact (hne p hp).2 (by simpa using hs)
          | succ k =>
            rintro ⟨p, hp, hs⟩
            exact Nat.find_min h' (show k < Nat.find h' by omega)
              ⟨p, hp, by simpa [List.append_assoc] using hs⟩
      have hih := ih ps (t ++ [c]) hne' h'
      rw [findMultiLoop_cons, hstep, hfind]
      simpa [List.append_assoc] using hih

/-- With only non-empty targets, the zero-length pre-scan finds nothing. -/
theorem findIdxZero_none {ps : List (List Char)} (hne : ∀ p ∈ ps, p ≠ []) :
    ps.findIdx? (fun p => p.length == 0) = none := by
  rw [List.findIdx?_eq_none_iff]
  intro p hp
  simpa using hne p hp

/-- With only non-empty targets, `findMulti` is the scan loop started with
all cursors at 0 (the border of the empty consumed text). -/
theorem findMulti_eq_loop (ps : List (List Char)) (s : List Char)
    (hne : ∀ p ∈ ps, p ≠ []) :
    findMulti ps s = findMultiLoop (ps.map fun p => ⟨p, border p []⟩) s := by
  rw [findMulti, findIdxZero_none hne]
  exact congrArg (fun tg => findMultiLoop tg s)
    (List.map_congr_left (fun p hp => by rw [border_nil (hne p hp)]))

/-- C1: for every list of non-empty patterns and every source stream, if some
pattern occurs as a substring of the bytes delivered before the deadline —
`N` being the earliest position at which an occurrence of some pattern
completes — findMulti returns the index of the pattern whose occurrence
completes first (ties broken by list order), and afterwards the stream cursor
sits exactly one byte past the end of the matched occurrence; in particular
the on-the-fly failure-function backtracking makes pattern "1112" match
inside input "1111112" (consuming all seven bytes), while a
reset-to-zero-on-mismatch scheme misses it. -/
theorem findMulti_first_completion :
    (∀ (ps : List (List Char)) (s : List Char) (N : Nat),
        (∀ p ∈ ps, p ≠ []) →
        (∃ p ∈ ps, p <:+ s.take N) →
        (∀ m, m < N → ∀ p ∈ ps, ¬ p <:+ s.take m) →
        findMulti ps s =
          (((ps.findIdx fun p => decide (p <:+ s.take N)) : Int), s.drop N))
    ∧ findMulti ["1112".toList] "1111112".toList = (0, [])
    ∧ resetToZeroFind "1112".toList 0 "1111112".toList = false := by
  refine ⟨?_, by decide, by decide⟩
  intro ps s N hne hex hmin
  have hne' : ∀ p ∈ ps, p ≠ [] ∧ ¬ p <:+ ([] : List Char) := fun p hp =>
    ⟨hne p hp, by simpa using hne p hp⟩
  have h' : ∃ n, ∃ p ∈ ps, p <:+ [] ++ s.take n := ⟨N, by simpa using hex⟩
  have hfind : Nat.find h' = N := by
    rw [Nat.find_eq_iff]
    refine ⟨by simpa using hex, ?_⟩
    intro m hm
    rintro ⟨p, hp, hs⟩
    exact hmin m hm p hp (by simpa using hs)
  have hloop := findMultiLoop_first_occ s ps [] hne' h'
  rw [findMulti_eq_loop ps s hne, hloop, hfind]
  simp

theorem findMulti_first_completion_witness :
    findMulti [['a', 'b']] ['x', 'a', 'b', 'y'] =
      ((([['a', 'b']].findIdx fun p =>
          decide (p <:+ (['x', 'a', 'b', 'y'].take 3))) : Int),
       ['x', 'a', 'b', 'y'].drop 3) :=
  findMulti_first_completion.1 [['a', 'b']] ['x', 'a', 'b', 'y'] 3 (by decide)
    (by decide)
    (by
      intro m hm
      have hm3 : m = 0 ∨ m = 1 ∨ m = 2 := by omega
      rcases hm3 with rfl | rfl | rfl <;> decide)

/-- C2: for every list of non-empty patterns and every source stream
containing no occurrence of any pattern, once the source is exhausted within
the timeout findMulti returns the sentinel -1 with every byte of the source
consumed (none left unread), and the single-target find built on it returns
false. -/
theorem findMulti_no_occurrence :
    ∀ (ps : List (List Char)) (s : List Char),
      (∀ p ∈ ps, p ≠ []) → (∀ p ∈ ps, ¬ p <:+: s) →
      findMulti ps s = (-1, []) ∧
      ∀ p ∈ ps, findTarget p s = (false, []) := by
  have key : ∀ (qs : List (List Char)) (s : List Char),
      (∀ p ∈ qs, p ≠ []) → (∀ p ∈ qs, ¬ p <:+: s) →
      findMulti qs s = (-1, []) := by
    intro qs s h1 h2
    rw [findMulti_eq_loop qs s h1]
    apply findMultiLoop_no_occ s qs [] h1
    intro n p hp hsuf
    apply h2 p hp
    have h3 : p <:+ s.take n := by simpa using hsuf
    exact h3.isInfix.trans (List.take_prefix n s).isInfix
  intro ps s hne hocc
  refine ⟨key ps s hne hocc, ?_⟩
  intro p hp
  have hk := key [p] s (by simpa using hne p hp) (by simpa using hocc p hp)
  simp [findTarget, hk]

theorem findMulti_no_occurrence_witness :
    findMulti [['z']] ['a', 'b'] = (-1, []) ∧
    ∀ p ∈ [['z']], findTarget p ['a', 'b'] = (false, []) :=
  findMulti_no_occurrence [['z']] ['a', 'b'] (by decide) (by decide)

/-- C7: for every pattern list containing at least one zero-length pattern,
findMulti returns, before reading any byte from the source (the stream is
returned unchanged, whatever it contains), the index of the earliest
zero-length pattern in list order. -/
theorem findMulti_zero_length :
    ∀ (ps : List (List Char)) (s : List Char) (k : Nat),
      k < ps.length → ps.getD k [' '] = [] →
      (∀ j, j < k → ps.getD j [' '] ≠ []) →
      findMulti ps s = ((k : Int), s) := by
  intro ps s k hk hzk hj
  have hget : ∀ i, ∀ hi : i < ps.length, ps.getD i [' '] = ps[i] := fun i hi => by
    rw [List.getD_eq_getElem?_getD, List.getElem?_eq_getElem hi, Option.getD_some]
  have hfind : ps.findIdx? (fun p => p.length == 0) = some k := by
    rw [List.findIdx?_eq_some_iff_getElem]
    refine ⟨hk, ?_, ?_⟩
    · rw [← hget k hk, hzk]
      rfl
    · intro j hj'
      intro habs
      apply hj j hj'
      rw [hget j (Nat.lt_trans hj' hk)]
      simpa using habs
  rw [findMulti, hfind]

theorem findMulti_zero_length_witness :
    findMulti [['a'], []] ['x'] = ((1 : Int), ['x']) :=
  findMulti_zero_length [['a'], []] ['x'] 1 (by decide) (by decide)
    (by
      intro j hj
      have hj0 : j = 0 := by omega
      subst hj0
      decide)

end ArduinoStream
